import Mathlib

/-!
Verification of the vegamm_rust market-making client.

Shallow embedding of the Rust sources:
  * `src/vega_store.rs`  — the `VegaStore` reconciliation cache and its save
    operations (`save_orders`, `save_positions`, `save_accounts`,
    `save_market_data`);
  * `src/strategy.rs`    — the `Decimals` converter, budget computation and
    ladder/batch construction of `run_strategy` / `get_order_submission`;
  * `src/binance_ws.rs`  — the `RefPrice` cell and the ticker-frame loop body.

Modelling conventions:
  * Rust `HashMap<String, V>` is modelled by an association list
    `List (String × V)` with `kvGet` / `kvInsert` / `kvErase` mirroring
    `HashMap::get` / `insert` / `remove` (a `HashMap` never holds two entries
    for one key, so all-occurrence erase semantics coincide with it on every
    state the program can build);
  * `f64` arithmetic is modelled by exact rational arithmetic over `ℚ`;
    `as u64` casts and `BigUint::from_f64(..).unwrap()` are modelled by
    truncation toward zero (with saturation at 0 for negatives, and `none`
    for the `BigUint` panic on values below -1);
  * code that can panic (`unwrap`, indexing a missing key) is modelled in the
    `Option` monad, `none` standing for the panic;
  * protobuf message types are projected to the fields this program reads.
-/

namespace VegaMM

/-! ## Association-list model of `HashMap<String, V>` -/

/-- `HashMap::get`: first entry with the given key. -/
def kvGet {α : Type} : List (String × α) → String → Option α
  | [], _ => none
  | (k1, v) :: rest, k => if k1 = k then some v else kvGet rest k

/-- `HashMap::remove`: drop every entry with the given key. -/
def kvErase {α : Type} : List (String × α) → String → List (String × α)
  | [], _ => []
  | (k1, v) :: rest, k =>
    if k1 = k then kvErase rest k else (k1, v) :: kvErase rest k

/-- `HashMap::insert`: bind the key to the value, removing any prior binding. -/
def kvInsert {α : Type} (m : List (String × α)) (k : String) (v : α) :
    List (String × α) :=
  (k, v) :: kvErase m k

theorem kvGet_erase {α : Type} (m : List (String × α)) (k k' : String) :
    kvGet (kvErase m k) k' = if k' = k then none else kvGet m k' := by
  induction m with
  | nil => simp [kvGet, kvErase]
  | cons p rest ih =>
    obtain ⟨k1, v⟩ := p
    by_cases h1 : k1 = k
    · subst h1
      by_cases h2 : k' = k1
      · subst h2
        simp [kvGet, kvErase, ih]
      · simp [kvErase, ih, h2, Ne.symm h2, kvGet]
    · by_cases h2 : k1 = k'
      · subst h2
        simp [kvGet, kvErase, h1]
      · simp [kvGet, kvErase, h1, h2, ih]

theorem kvGet_insert {α : Type} (m : List (String × α)) (k k' : String) (v : α) :
    kvGet (kvInsert m k v) k' = if k' = k then some v else kvGet m k' := by
  unfold kvInsert
  by_cases h : k = k'
  · subst h
    simp [kvGet]
  · simp [kvGet, h, Ne.symm h, kvGet_erase]

theorem kvErase_sublist {α : Type} (m : List (String × α)) (k : String) :
    (kvErase m k).Sublist m := by
  induction m with
  | nil => simp [kvErase]
  | cons p rest ih =>
    obtain ⟨k1, v⟩ := p
    by_cases h1 : k1 = k
    · simp only [kvErase, h1, if_pos rfl]
      exact ih.cons _
    · simp only [kvErase, h1, if_false]
      exact ih.cons₂ _

theorem mem_kvErase {α : Type} {m : List (String × α)} {k : String}
    {q : String × α} (hq : q ∈ kvErase m k) : q ∈ m ∧ q.1 ≠ k := by
  induction m with
  | nil => simp [kvErase] at hq
  | cons p rest ih =>
    obtain ⟨k1, v⟩ := p
    by_cases h1 : k1 = k
    · simp only [kvErase, h1, if_true] at hq
      exact ⟨List.mem_cons_of_mem _ (ih hq).1, (ih hq).2⟩
    · simp only [kvErase, h1, if_false, List.mem_cons] at hq
      rcases hq with hq | hq
      · subst hq
        exact ⟨List.mem_cons_self _ _, h1⟩
      · exact ⟨List.mem_cons_of_mem _ (ih hq).1, (ih hq).2⟩

theorem kvInsert_keys_nodup {α : Type} (m : List (String × α)) (k : String)
    (v : α) (h : (m.map Prod.fst).Nodup) :
    ((kvInsert m k v).map Prod.fst).Nodup := by
  simp only [kvInsert, List.map_cons, List.nodup_cons]
  refine ⟨?_, ((kvErase_sublist m k).map Prod.fst).nodup h⟩
  intro hmem
  rcases List.mem_map.mp hmem with ⟨q, hq, hqe⟩
  exact (mem_kvErase hq).2 hqe

/-! ## Data model (protobuf messages projected to the fields the program reads) -/

/-- `vega::order::Status` from the vega protobufs (the prost enum behind
`Status::from_i32` in `save_orders`). -/
inductive Status where
  | unspecified
  | active
  | expired
  | cancelled
  | stopped
  | filled
  | rejected
  | partiallyFilled
  | parked
deriving DecidableEq, Repr

/-- `Status::from_i32`: decode the wire integer, `none` for undefined values. -/
def Status.fromI32 (n : Int) : Option Status :=
  if n = 0 then some .unspecified
  else if n = 1 then some .active
  else if n = 2 then some .expired
  else if n = 3 then some .cancelled
  else if n = 4 then some .stopped
  else if n = 5 then some .filled
  else if n = 6 then some .rejected
  else if n = 7 then some .partiallyFilled
  else if n = 8 then some .parked
  else none

/-- `vega::Order`, projected to the fields `vega_store.rs` reads: the order
id and the raw `i32` status. -/
structure Order where
  id : String
  status : Int
deriving DecidableEq, Repr

/-- `AccountBalance` from the datanode API, projected to the fields the store
and the strategy read: owner, decimal-string balance, asset id, market id and
the raw `i32` account type. -/
structure AccountBalance where
  owner : String
  balance : String
  asset : String
  market_id : String
  type : Int
deriving DecidableEq, Repr

/-- `vega::Position`, projected to the fields the strategy reads: `i64` open
volume and the decimal-string average entry price. -/
structure Position where
  open_volume : Int
  average_entry_price : String
deriving DecidableEq, Repr

/-- `vega::Asset`, with `details.decimals` flattened into the one field the
program reads (`asset.details.as_ref().unwrap().decimals`). -/
structure Asset where
  id : String
  decimals : Nat
deriving DecidableEq, Repr

/-- `vega::Market`, projected to the fields the program reads; the
`tradable_instrument.instrument.product` chain is flattened to the
`Future.settlement_asset` it always carries (`get_asset` in `strategy.rs`). -/
structure Market where
  id : String
  decimal_places : Nat
  position_decimal_places : Int
  settlement_asset : String
deriving DecidableEq, Repr

/-- `vega::MarketData`, projected to a representative field; `run_strategy`
never reads it, the store only replaces it wholesale. -/
structure MarketData where
  mark_price : String
deriving DecidableEq, Repr

/-! ## `VegaStore` (`src/vega_store.rs`) -/

/-- The `VegaStore` state: market definition, latest market data, the
account/order/asset maps and the optional position, as in `vega_store.rs`. -/
structure VegaStore where
  market : Market
  market_data : MarketData
  accounts : List (String × AccountBalance)
  orders : List (String × Order)
  position : Option Position
  assets : List (String × Asset)
deriving DecidableEq, Repr

namespace VegaStore

/-- `get_market`. -/
def get_market (s : VegaStore) : Market := s.market

/-- `get_asset`: indexes the asset map, panicking (`none`) on a missing id. -/
def get_asset (s : VegaStore) (id : String) : Option Asset :=
  kvGet s.assets id

/-- `get_market_data`. -/
def get_market_data (s : VegaStore) : MarketData := s.market_data

/-- `get_position`. -/
def get_position (s : VegaStore) : Option Position := s.position

/-- `get_orders`: the values of the order map. -/
def get_orders (s : VegaStore) : List Order := s.orders.map Prod.snd

/-- `get_accounts`: the values of the account map. -/
def get_accounts (s : VegaStore) : List AccountBalance := s.accounts.map Prod.snd

/-- `save_market_data`: unconditional replace. -/
def save_market_data (s : VegaStore) (md : MarketData) : VegaStore :=
  { s with market_data := md }

/-- The composite account key `format!("{}{}{}", a.type, a.asset, a.market_id)`
used by `save_accounts`. -/
def accountKey (a : AccountBalance) : String :=
  toString a.type ++ a.asset ++ a.market_id

/-- `save_orders`: for each order in the list, decode its status with
`Status::from_i32(..).unwrap()` (`none` models the unwrap panic); a
non-active order is removed from the order map by id, an active one is
inserted/replaced under its id. -/
def save_orders (s : VegaStore) : List Order → Option VegaStore
  | [] => some s
  | o :: rest =>
    match Status.fromI32 o.status with
    | none => none
    | some st =>
      if st ≠ Status.active then
        save_orders { s with orders := kvErase s.orders o.id } rest
      else
        save_orders { s with orders := kvInsert s.orders o.id o } rest

/-- `save_positions`: each entry overwrites the single position slot. -/
def save_positions (s : VegaStore) : List Position → VegaStore
  | [] => s
  | p :: rest => save_positions { s with position := some p } rest

/-- `save_accounts`: each entry upserts the bucket under its composite key. -/
def save_accounts (s : VegaStore) : List AccountBalance → VegaStore
  | [] => s
  | a :: rest =>
    save_accounts { s with accounts := kvInsert s.accounts (accountKey a) a } rest

end VegaStore

/-! ## Lemmas about the store's save operations -/

namespace VegaStore

theorem save_orders_frame :
    ∀ (l : List Order) (s s' : VegaStore), save_orders s l = some s' →
      s'.market = s.market ∧ s'.market_data = s.market_data ∧
      s'.accounts = s.accounts ∧ s'.position = s.position ∧
      s'.assets = s.assets := by
  intro l
  induction l with
  | nil =>
    intro s s' h
    simp only [save_orders, Option.some_inj] at h
    subst h
    exact ⟨rfl, rfl, rfl, rfl, rfl⟩
  | cons o rest ih =>
    intro s s' h
    cases hst : Status.fromI32 o.status with
    | none => simp [save_orders, hst] at h
    | some st =>
      by_cases ha : st = Status.active
      · simp only [save_orders, hst, ha, ne_eq, not_true_eq_false, if_false] at h
        have hr := ih _ s' h
        exact hr
      · simp only [save_orders, hst, ne_eq, ha, not_false_eq_true, if_true] at h
        have hr := ih _ s' h
        exact hr

theorem save_orders_untouched :
    ∀ (l : List Order) (s s' : VegaStore) (k : String),
      save_orders s l = some s' → (∀ o ∈ l, o.id ≠ k) →
      kvGet s'.orders k = kvGet s.orders k := by
  intro l
  induction l with
  | nil =>
    intro s s' k h _
    simp only [save_orders, Option.some_inj] at h
    subst h
    rfl
  | cons o rest ih =>
    intro s s' k h hne
    have hok : o.id ≠ k := hne o (List.mem_cons_self _ _)
    have hrest : ∀ o' ∈ rest, o'.id ≠ k := fun o' ho' =>
      hne o' (List.mem_cons_of_mem _ ho')
    cases hst : Status.fromI32 o.status with
    | none => simp [save_orders, hst] at h
    | some st =>
      by_cases ha : st = Status.active
      · simp only [save_orders, hst, ha, ne_eq, not_true_eq_false, if_false] at h
        rw [ih _ s' k h hrest]
        simp [kvGet_insert, Ne.symm hok]
      · simp only [save_orders, hst, ne_eq, ha, not_false_eq_true, if_true] at h
        rw [ih _ s' k h hrest]
        simp [kvGet_erase, Ne.symm hok]

theorem save_orders_mem_get :
    ∀ (l : List Order) (s s' : VegaStore),
      save_orders s l = some s' → (l.map Order.id).Nodup →
      ∀ o ∈ l, kvGet s'.orders o.id =
        if Status.fromI32 o.status = some Status.active then some o else none := by
  intro l
  induction l with
  | nil => intro s s' _ _ o ho; simp at ho
  | cons o1 rest ih =>
    intro s s' h hnd o ho
    simp only [List.map_cons, List.nodup_cons] at hnd
    cases hst : Status.fromI32 o1.status with
    | none => simp [save_orders, hst] at h
    | some st =>
      rcases List.mem_cons.mp ho with rfl | hmem
      · have hrest : ∀ o' ∈ rest, o'.id ≠ o.id := by
          intro o' ho' he
          exact hnd.1 (he ▸ List.mem_map_of_mem Order.id ho')
        by_cases ha : st = Status.active
        · subst ha
          simp only [save_orders, hst, ne_eq, not_true_eq_false, if_false] at h
          rw [save_orders_untouched rest _ s' o.id h hrest]
          simp [kvGet_insert, hst]
        · simp only [save_orders, hst, ne_eq, ha, not_false_eq_true, if_true] at h
          rw [save_orders_untouched rest _ s' o.id h hrest]
          rw [kvGet_erase]
          have : Status.fromI32 o.status ≠ some Status.active := by
            rw [hst]
            exact fun hc => ha (Option.some_inj.mp hc)
          simp [this]
      · by_cases ha : st = Status.active
        · simp only [save_orders, hst, ha, ne_eq, not_true_eq_false, if_false] at h
          exact ih _ s' h hnd.2 o hmem
        · simp only [save_orders, hst, ne_eq, ha, not_false_eq_true, if_true] at h
          exact ih _ s' h hnd.2 o hmem

theorem save_orders_none_iff :
    ∀ (l : List Order) (s : VegaStore),
      save_orders s l = none ↔ ∃ o ∈ l, Status.fromI32 o.status = none := by
  intro l
  induction l with
  | nil => intro s; simp [save_orders]
  | cons o rest ih =>
    intro s
    cases hst : Status.fromI32 o.status with
    | none => simp [save_orders, hst]
    | some st =>
      by_cases ha : st = Status.active
      · simp only [save_orders, hst, ha, ne_eq, not_true_eq_false, if_false]
        rw [ih]
        simp [hst]
      · simp only [save_orders, hst, ne_eq, ha, not_false_eq_true, if_true]
        rw [ih]
        simp [hst]

theorem save_positions_position :
    ∀ (l : List Position) (s : VegaStore),
      (save_positions s l).position =
        match l.getLast? with
        | some p => some p
        | none => s.position := by
  intro l
  induction l with
  | nil => intro s; rfl
  | cons p rest ih =>
    intro s
    rw [show save_positions s (p :: rest) =
          save_positions { s with position := some p } rest from rfl]
    rw [ih]
    cases rest with
    | nil => rfl
    | cons q qs =>
      simp only [List.getLast?_cons_cons]
      cases hq : (q :: qs).getLast? with
      | none => simp at hq
      | some r => rfl

theorem save_positions_frame (l : List Position) (s : VegaStore) :
    (save_positions s l).market = s.market ∧
    (save_positions s l).market_data = s.market_data ∧
    (save_positions s l).accounts = s.accounts ∧
    (save_positions s l).orders = s.orders ∧
    (save_positions s l).assets = s.assets := by
  induction l generalizing s with
  | nil => exact ⟨rfl, rfl, rfl, rfl, rfl⟩
  | cons p rest ih => exact ih _

theorem save_accounts_frame (l : List AccountBalance) (s : VegaStore) :
    (save_accounts s l).market = s.market ∧
    (save_accounts s l).market_data = s.market_data ∧
    (save_accounts s l).orders = s.orders ∧
    (save_accounts s l).position = s.position ∧
    (save_accounts s l).assets = s.assets := by
  induction l generalizing s with
  | nil => exact ⟨rfl, rfl, rfl, rfl, rfl⟩
  | cons a rest ih => exact ih _

theorem save_accounts_get_of_fresh (l : List AccountBalance) :
    ∀ (s : VegaStore) (k : String), (∀ a ∈ l, accountKey a ≠ k) →
      kvGet (save_accounts s l).accounts k = kvGet s.accounts k := by
  induction l with
  | nil => intro s k _; rfl
  | cons a rest ih =>
    intro s k hne
    rw [show save_accounts s (a :: rest) =
          save_accounts { s with accounts := kvInsert s.accounts (accountKey a) a }
            rest from rfl]
    rw [ih _ k (fun a' ha' => hne a' (List.mem_cons_of_mem _ ha'))]
    simp [kvGet_insert, Ne.symm (hne a (List.mem_cons_self _ _))]

theorem save_accounts_isSome (l : List AccountBalance) :
    ∀ (s : VegaStore) (k : String), (kvGet s.accounts k).isSome →
      (kvGet (save_accounts s l).accounts k).isSome := by
  induction l with
  | nil => intro s k h; exact h
  | cons a rest ih =>
    intro s k h
    rw [show save_accounts s (a :: rest) =
          save_accounts { s with accounts := kvInsert s.accounts (accountKey a) a }
            rest from rfl]
    apply ih
    simp only [kvGet_insert]
    by_cases hk : k = accountKey a
    · simp [hk]
    · simpa [hk] using h

theorem save_accounts_keys_nodup (l : List AccountBalance) :
    ∀ (s : VegaStore), (s.accounts.map Prod.fst).Nodup →
      ((save_accounts s l).accounts.map Prod.fst).Nodup := by
  induction l with
  | nil => intro s h; exact h
  | cons a rest ih =>
    intro s h
    exact ih _ (kvInsert_keys_nodup _ _ _ h)

end VegaStore

/-! ## Decimal-string parsing

Model of Rust's `str::parse::<f64>()` as used on the plain decimal strings
this program receives (balances, entry prices, ticker bid/ask): an optional
leading minus sign, then digits with at most one decimal point. Strings
outside this grammar parse to `none` (the call sites `unwrap`, i.e. panic). -/

/-- Value of one ASCII digit, `none` for a non-digit. -/
def digitVal (c : Char) : Option Nat :=
  if c.isDigit then some (c.toNat - 48) else none

/-- Read a digit string as a natural number, `none` if any char is invalid. -/
def parseNatDigits (cs : List Char) : Option Nat :=
  cs.foldl (fun acc c => acc.bind fun n => (digitVal c).map fun d => n * 10 + d)
    (some 0)

/-- Parse a decimal string to an exact rational, `none` on malformed input. -/
def parseDecimal (s : String) : Option ℚ :=
  let cs := s.data
  let sign : ℚ := if cs.head? = some '-' then -1 else 1
  let body : List Char := if cs.head? = some '-' then cs.tail else cs
  match body.splitOn '.' with
  | [intPart] =>
    if intPart.isEmpty then none
    else (parseNatDigits intPart).map fun n => sign * n
  | [intPart, fracPart] =>
    if intPart.isEmpty ∧ fracPart.isEmpty then none
    else
      (parseNatDigits intPart).bind fun n =>
        (parseNatDigits fracPart).map fun f =>
          sign * ((n : ℚ) + (f : ℚ) / 10 ^ fracPart.length)
  | _ => none

/-! ## `Decimals` and the strategy (`src/strategy.rs`)

`f64` values are modelled by exact rationals; the protocol-scale casts
`as u64` and `BigUint::from_f64(..).unwrap()` truncate toward zero. -/

/-- The `Decimals` converter of `strategy.rs`. -/
structure Decimals where
  position_factor : ℚ
  price_factor : ℚ
  asset_factor : ℚ
deriving DecidableEq, Repr

namespace Decimals

/-- `Decimals::new`: powers of ten from the market/asset decimal counts
(`position_decimal_places` is an `i64`, so its factor is an integer power). -/
def new (mkt : Market) (asset : Asset) : Decimals :=
  { position_factor := (10 : ℚ) ^ mkt.position_decimal_places
    price_factor := (10 : ℚ) ^ mkt.decimal_places
    asset_factor := (10 : ℚ) ^ asset.decimals }

def from_asset_precision (d : Decimals) (amount : ℚ) : ℚ :=
  amount / d.asset_factor

def from_market_price_precision (d : Decimals) (price : ℚ) : ℚ :=
  price / d.price_factor

def from_market_position_precision (d : Decimals) (position : ℚ) : ℚ :=
  position / d.position_factor

def to_market_price_precision (d : Decimals) (price : ℚ) : ℚ :=
  price * d.price_factor

def to_market_position_precision (d : Decimals) (position : ℚ) : ℚ :=
  position * d.position_factor

end Decimals

/-- Rust's saturating `f64 as u64` cast on the values this program produces:
truncation toward zero, negatives saturating to 0. -/
def f64_as_u64 (x : ℚ) : Nat := ⌊x⌋.toNat

/-- `BigUint::from_f64(x).unwrap()`: truncate toward zero; values truncating
below zero make `from_f64` return `None` and the `unwrap` panic. -/
def biguint_from_f64 (x : ℚ) : Option Nat :=
  if x ≤ -1 then none else some ⌊x⌋.toNat

/-- `vega_wallet_client::commands::Side` (the two variants the code builds). -/
inductive Side where
  | buy
  | sell
deriving DecidableEq, Repr

/-- `vega_wallet_client::commands::TimeInForce`. -/
inductive TimeInForce where
  | gtc
  | gtt
  | ioc
  | fok
  | gfa
  | gfn
deriving DecidableEq, Repr

/-- `vega_wallet_client::commands::OrderType`. -/
inductive OrderType where
  | unspecified
  | limit
  | market
  | network
deriving DecidableEq, Repr

/-- `vega_wallet_client::commands::PeggedOrder` (never constructed here). -/
structure PeggedOrder where
  reference : Int
  offset : String
deriving DecidableEq, Repr

/-- `vega_wallet_client::commands::OrderSubmission`; `price` is the decimal
string of the `BigUint` protocol-scale price. -/
structure OrderSubmission where
  market_id : String
  price : String
  size : Nat
  side : Side
  time_in_force : TimeInForce
  expires_at : Int
  type : OrderType
  reference : String
  pegged_order : Option PeggedOrder
deriving DecidableEq, Repr

/-- `vega_wallet_client::commands::OrderCancellation`. -/
structure OrderCancellation where
  market_id : String
  order_id : String
deriving DecidableEq, Repr

/-- `vega_wallet_client::commands::BatchMarketInstructions`; amendments are
never built by this program, so their payload type is irrelevant. -/
structure BatchMarketInstructions where
  cancellations : List OrderCancellation
  amendments : List Unit
  submissions : List OrderSubmission
deriving DecidableEq, Repr

/-- The nested `price_buy` of `get_order_submission`. -/
def price_buy (ref_price f : ℚ) : ℚ := ref_price * (1 - f * 0.002)

/-- The nested `price_sell` of `get_order_submission`. -/
def price_sell (ref_price f : ℚ) : ℚ := ref_price * (1 + f * 0.002)

/-- The `for i in vec![1,2,3,4,5]` loop of `get_order_submission`: build one
order per level, `none` modelling the `BigUint::from_f64(..).unwrap()` panic
on a negative scaled price. -/
def submission_levels (d : Decimals) (ref_price : ℚ)
    (price_f : ℚ → ℚ → ℚ) (side : Side) (market_id : String) (size : ℚ) :
    List ℚ → Option (List OrderSubmission)
  | [] => some []
  | i :: rest =>
    match biguint_from_f64 (d.to_market_price_precision (price_f ref_price i)) with
    | none => none
    | some p =>
      match submission_levels d ref_price price_f side market_id size rest with
      | none => none
      | some orders =>
        some ({ market_id := market_id
                price := toString p
                size := f64_as_u64 (d.to_market_position_precision size)
                side := side
                time_in_force := TimeInForce.gtc
                expires_at := 0
                type := OrderType.limit
                reference := "VEGA_RUST_MM_SIMPLE"
                pegged_order := none } :: orders)

/-- `get_order_submission` from `strategy.rs`. -/
def get_order_submission (d : Decimals) (ref_price : ℚ) (side : Side)
    (market_id : String) (target_volume : ℚ) : Option (List OrderSubmission) :=
  let size := target_volume / 5 * ref_price
  let price_f : ℚ → ℚ → ℚ :=
    match side with
    | Side.buy => price_buy
    | Side.sell => price_sell
  submission_levels d ref_price price_f side market_id size [1, 2, 3, 4, 5]

/-- `volume_and_average_entry_price`: `(0, 0)` when flat, otherwise the
protocol-scale volume and entry price converted to human scale (`none`
modelling the `parse::<f64>().unwrap()` panic). -/
def volume_and_average_entry_price (d : Decimals) (pos : Option Position) :
    Option (ℚ × ℚ) :=
  match pos with
  | some p =>
    (parseDecimal p.average_entry_price).map fun aep =>
      (d.from_market_position_precision (p.open_volume : ℚ),
        d.from_market_price_precision aep)
  | none => some (0, 0)

/-- `get_pubkey_balance`: sum the balances whose asset and owner match, then
scale by the asset precision (`none` models the balance-parse panic). -/
def get_pubkey_balance (s : VegaStore) (pubkey asset_id : String)
    (d : Decimals) : Option ℚ :=
  (s.get_accounts.foldlM
    (fun balance acc =>
      if acc.asset ≠ asset_id ∨ acc.owner ≠ pubkey then some balance
      else (parseDecimal acc.balance).map fun b => balance + b)
    (0 : ℚ)).map d.from_asset_precision

/-- `fn get_asset(mkt)` of `strategy.rs`: the settlement asset of the
market's (sole, `Future`) product. -/
def market_settlement_asset (mkt : Market) : String := mkt.settlement_asset

/-- `bid_volume` of `run_strategy`: `balance * 0.5 - open_volume * aep`. -/
def bid_volume (balance open_volume aep : ℚ) : ℚ :=
  balance * 0.5 - open_volume * aep

/-- `offer_volume` of `run_strategy`: `balance * 0.5 + open_volume * aep`. -/
def offer_volume (balance open_volume aep : ℚ) : ℚ :=
  balance * 0.5 + open_volume * aep

/-- One run of `run_strategy`, as the batch it submits (`none` models the
panics: unknown settlement asset, unparseable decimal, negative scaled
price). Reads the store and the reference pair, computes the skewed budgets
and returns the cancel-and-replace batch. -/
def run_strategy (s : VegaStore) (pubkey market : String)
    (best_bid best_ask : ℚ) : Option BatchMarketInstructions :=
  let mkt := s.get_market
  match s.get_asset (market_settlement_asset mkt) with
  | none => none
  | some asset =>
    let d := Decimals.new mkt asset
    match volume_and_average_entry_price d s.get_position with
    | none => none
    | some (open_volume, aep) =>
      match get_pubkey_balance s pubkey asset.id d with
      | none => none
      | some balance =>
        match get_order_submission d best_bid Side.buy market
            (bid_volume balance open_volume aep) with
        | none => none
        | some bids =>
          match get_order_submission d best_ask Side.sell market
              (offer_volume balance open_volume aep) with
          | none => none
          | some offers =>
            some { cancellations := [{ market_id := market, order_id := "" }]
                   amendments := []
                   submissions := bids ++ offers }

/-! ## `RefPrice` and the ticker loop (`src/binance_ws.rs`) -/

/-- The `RefPrice` cell. -/
structure RefPrice where
  bid_price : ℚ
  ask_price : ℚ
deriving DecidableEq, Repr

namespace RefPrice

/-- `RefPrice::new`. -/
def new : RefPrice := { bid_price := 0, ask_price := 0 }

/-- `RefPrice::set`. -/
def set (_ : RefPrice) (bid_price ask_price : ℚ) : RefPrice :=
  { bid_price := bid_price, ask_price := ask_price }

/-- `RefPrice::get`. -/
def get (r : RefPrice) : ℚ × ℚ := (r.bid_price, r.ask_price)

end RefPrice

/-- The `Response` frame shape of `binance_ws.rs`: event tag `e`, ask `a`,
bid `b`, all strings. -/
structure BinanceResponse where
  e : String
  a : String
  b : String
deriving DecidableEq, Repr

/-- One iteration of the ticker loop body, after the frame was read:
`decoded` is the `serde_json::from_str::<Response>` result (`none` for a
frame that does not decode). Result `none` models the
`parse::<f64>().unwrap()` panic; `some r'` is the cell after the iteration. -/
def process_frame (r : RefPrice) (decoded : Option BinanceResponse) :
    Option RefPrice :=
  match decoded with
  | none => some r
  | some resp =>
    if resp.e = "24hrTicker" then
      match parseDecimal resp.b, parseDecimal resp.a with
      | some b, some a => some (r.set b a)
      | _, _ => none
    else some r

/-! ## Lemmas about the ladder construction -/

theorem submission_levels_get :
    ∀ (levels : List ℚ) (d : Decimals) (ref_price : ℚ) (price_f : ℚ → ℚ → ℚ)
      (side : Side) (market_id : String) (size : ℚ) (l : List OrderSubmission),
      submission_levels d ref_price price_f side market_id size levels = some l →
      l.length = levels.length ∧
      ∀ (i : Nat) (hi : i < levels.length),
        l[i]? = some
          { market_id := market_id
            price := toString
              ⌊d.to_market_price_precision
                (price_f ref_price (levels.get ⟨i, hi⟩))⌋.toNat
            size := ⌊d.to_market_position_precision size⌋.toNat
            side := side
            time_in_force := TimeInForce.gtc
            expires_at := 0
            type := OrderType.limit
            reference := "VEGA_RUST_MM_SIMPLE"
            pegged_order := none } := by
  intro levels
  induction levels with
  | nil =>
    intro d ref_price price_f side market_id size l h
    simp only [submission_levels, Option.some_inj] at h
    subst h
    exact ⟨rfl, fun i hi => absurd hi (by simp)⟩
  | cons lev rest ih =>
    intro d ref_price price_f side market_id size l h
    simp only [submission_levels] at h
    cases hp : biguint_from_f64
        (d.to_market_price_precision (price_f ref_price lev)) with
    | none => rw [hp] at h; simp at h
    | some p =>
      rw [hp] at h
      cases hrest : submission_levels d ref_price price_f side market_id size
          rest with
      | none => rw [hrest] at h; simp at h
      | some orders =>
        rw [hrest] at h
        simp only [Option.some_inj] at h
        subst h
        have hpv : p = ⌊d.to_market_price_precision (price_f ref_price lev)⌋.toNat := by
          unfold biguint_from_f64 at hp
          by_cases hc : d.to_market_price_precision (price_f ref_price lev) ≤ -1
          · simp [hc] at hp
          · simp only [hc, if_false] at hp
            exact (Option.some_inj.mp hp).symm
        obtain ⟨hlen, hget⟩ := ih d ref_price price_f side market_id size orders hrest
        constructor
        · simp [hlen]
        · intro i hi
          cases i with
          | zero =>
            simp only [List.getElem?_cons_zero, Option.some_inj]
            rw [hpv]
            rfl
          | succ j =>
            have hj : j < rest.length := by
              simpa [Nat.succ_lt_succ_iff] using hi
            rw [List.getElem?_cons_succ]
            rw [hget j hj]
            rfl

theorem submission_levels_all :
    ∀ (levels : List ℚ) (d : Decimals) (ref_price : ℚ) (price_f : ℚ → ℚ → ℚ)
      (side : Side) (market_id : String) (size : ℚ) (l : List OrderSubmission),
      submission_levels d ref_price price_f side market_id size levels = some l →
      l.length = levels.length ∧
      ∀ o ∈ l, o.side = side ∧ o.reference = "VEGA_RUST_MM_SIMPLE" ∧
        o.time_in_force = TimeInForce.gtc ∧ o.type = OrderType.limit ∧
        o.expires_at = 0 ∧ o.pegged_order = none ∧ o.market_id = market_id := by
  intro levels
  induction levels with
  | nil =>
    intro d ref_price price_f side market_id size l h
    simp only [submission_levels, Option.some_inj] at h
    subst h
    exact ⟨rfl, fun o ho => absurd ho (by simp)⟩
  | cons lev rest ih =>
    intro d ref_price price_f side market_id size l h
    simp only [submission_levels] at h
    cases hp : biguint_from_f64
        (d.to_market_price_precision (price_f ref_price lev)) with
    | none => rw [hp] at h; simp at h
    | some p =>
      rw [hp] at h
      cases hrest : submission_levels d ref_price price_f side market_id size
          rest with
      | none => rw [hrest] at h; simp at h
      | some orders =>
        rw [hrest] at h
        simp only [Option.some_inj] at h
        subst h
        obtain ⟨hlen, hall⟩ := ih d ref_price price_f side market_id size orders hrest
        refine ⟨by simp [hlen], ?_⟩
        intro o ho
        rcases List.mem_cons.mp ho with rfl | hmem
        · exact ⟨rfl, rfl, rfl, rfl, rfl, rfl, rfl⟩
        · exact hall o hmem

theorem get_order_submission_all (d : Decimals) (ref_price : ℚ) (side : Side)
    (market_id : String) (target_volume : ℚ) (l : List OrderSubmission)
    (h : get_order_submission d ref_price side market_id target_volume = some l) :
    l.length = 5 ∧
    ∀ o ∈ l, o.side = side ∧ o.reference = "VEGA_RUST_MM_SIMPLE" ∧
      o.time_in_force = TimeInForce.gtc ∧ o.type = OrderType.limit ∧
      o.expires_at = 0 ∧ o.pegged_order = none ∧ o.market_id = market_id := by
  unfold get_order_submission at h
  have := submission_levels_all [1, 2, 3, 4, 5] d ref_price _ side market_id _ l h
  simpa using this

/-! ## Concrete fixtures for the witnesses -/

/-- An active order A. -/
def orderA : Order := { id := "A", status := 1 }

/-- An active order B. -/
def orderB : Order := { id := "B", status := 1 }

/-- The incremental update: order B now has status `Filled` (5). -/
def orderBfilled : Order := { id := "B", status := 5 }

/-- A market with 1 price decimal, 2 position decimals, settlement asset
`assetX`. -/
def mkt0 : Market :=
  { id := "mkt", decimal_places := 1, position_decimal_places := 2,
    settlement_asset := "assetX" }

/-- The settlement asset, 5 display decimals. -/
def asset0 : Asset := { id := "assetX", decimals := 5 }

/-- A store holding the live orders {A : active, B : active}. -/
def store0 : VegaStore :=
  { market := mkt0, market_data := { mark_price := "0" }, accounts := [],
    orders := [("A", orderA), ("B", orderB)], position := none,
    assets := [("assetX", asset0)] }

/-- `store0` after the {B : filled} update: live orders exactly {A}. -/
def store0A : VegaStore := { store0 with orders := [("A", orderA)] }

/-! ## Claim theorems -/

/-- C8: a freshly constructed reference-price cell reads as `(0, 0)` before
any tick has been applied: `RefPrice::new().get() == (0.0, 0.0)`. -/
theorem refprice_initial_zero : RefPrice.new.get = (0, 0) := rfl

/-- C6: for every market/asset pair and every price `p`, composing the
`Decimals` conversions as
`from_market_price_precision (to_market_price_precision p)` returns `p`
exactly, hence up to a truncation error bounded by `10 ^ -d_price`. -/
theorem decimals_price_roundtrip (mkt : Market) (asset : Asset) (p : ℚ) :
    (Decimals.new mkt asset).from_market_price_precision
        ((Decimals.new mkt asset).to_market_price_precision p) = p ∧
    |(Decimals.new mkt asset).from_market_price_precision
        ((Decimals.new mkt asset).to_market_price_precision p) - p| ≤
      (10 : ℚ) ^ (-(mkt.decimal_places : ℤ)) := by
  have hf : ((10 : ℚ) ^ mkt.decimal_places) ≠ 0 := by positivity
  have heq : (Decimals.new mkt asset).from_market_price_precision
      ((Decimals.new mkt asset).to_market_price_precision p) = p := by
    unfold Decimals.from_market_price_precision Decimals.to_market_price_precision
      Decimals.new
    exact mul_div_cancel_right₀ p hf
  refine ⟨heq, ?_⟩
  rw [heq, sub_self, abs_zero]
  positivity

/-- C3: the strategy's notional budgets are
`bid_budget = balance/2 - open_volume * entry_price` and
`offer_budget = balance/2 + open_volume * entry_price`; at
`balance = 1000`, `open_volume = 2`, `entry_price = 50` they are 400
and 600. -/
theorem strategy_budget_skew :
    (∀ balance open_volume aep : ℚ,
      bid_volume balance open_volume aep = balance / 2 - open_volume * aep ∧
      offer_volume balance open_volume aep = balance / 2 + open_volume * aep) ∧
    bid_volume 1000 2 50 = 400 ∧ offer_volume 1000 2 50 = 600 := by
  refine ⟨fun b v a => ⟨?_, ?_⟩, by norm_num [bid_volume], by norm_num [offer_volume]⟩
  · unfold bid_volume
    norm_num
    ring
  · unfold offer_volume
    norm_num
    ring

/-- C1: `save_orders` merge semantics, on a list whose order ids are
pairwise distinct: a listed order with a non-active status is removed from
the stored map under its id, a listed active order is inserted/replaced
under its id, and every stored id not listed is left unchanged. -/
theorem save_orders_merge_spec (s s' : VegaStore) (l : List Order)
    (hsave : VegaStore.save_orders s l = some s')
    (hnd : (l.map Order.id).Nodup) :
    (∀ o ∈ l, Status.fromI32 o.status ≠ some Status.active →
      kvGet s'.orders o.id = none) ∧
    (∀ o ∈ l, Status.fromI32 o.status = some Status.active →
      kvGet s'.orders o.id = some o) ∧
    (∀ k, (∀ o ∈ l, o.id ≠ k) → kvGet s'.orders k = kvGet s.orders k) := by
  refine ⟨?_, ?_, ?_⟩
  · intro o ho hna
    have h := VegaStore.save_orders_mem_get l s s' hsave hnd o ho
    rwa [if_neg hna] at h
  · intro o ho hact
    have h := VegaStore.save_orders_mem_get l s s' hsave hnd o ho
    rwa [if_pos hact] at h
  · intro k hk
    exact VegaStore.save_orders_untouched l s s' k hsave hk

/-- C1 witness: from stored {A : active, B : active}, saving the single
update {B : filled} yields the live-order set exactly {A}. -/
theorem save_orders_merge_witness :
    VegaStore.save_orders store0 [orderBfilled] = some store0A ∧
    kvGet store0A.orders "B" = none ∧
    kvGet store0A.orders "A" = some orderA ∧
    store0A.get_orders = [orderA] := by
  have hsave : VegaStore.save_orders store0 [orderBfilled] = some store0A := rfl
  have h := save_orders_merge_spec store0 store0A [orderBfilled] hsave (by decide)
  refine ⟨hsave, ?_, ?_, rfl⟩
  · exact h.1 orderBfilled (by decide) (by decide)
  · exact (h.2.2 "A" (by decide)).trans (by decide)

/-- C10: `save_orders` panics (result `none`) exactly when some order in the
list carries a status integer outside the defined `Status` enum; when every
status is a defined enum value it completes for every input list. -/
theorem save_orders_panic_spec (s : VegaStore) (l : List Order) :
    (VegaStore.save_orders s l = none ↔
      ∃ o ∈ l, Status.fromI32 o.status = none) ∧
    ((∀ o ∈ l, (Status.fromI32 o.status).isSome) →
      (VegaStore.save_orders s l).isSome) := by
  refine ⟨VegaStore.save_orders_none_iff l s, ?_⟩
  intro h
  rw [Option.isSome_iff_ne_none]
  intro hc
  rcases (VegaStore.save_orders_none_iff l s).mp hc with ⟨o, ho, hno⟩
  have := h o ho
  rw [hno] at this
  simp at this

/-- C10 witness: a list of valid-status orders is saved without panic, and a
list containing an undefined status integer (99) panics. -/
theorem save_orders_panic_witness :
    (VegaStore.save_orders store0 [orderA]).isSome ∧
    VegaStore.save_orders store0 [{ id := "X", status := 99 }] = none := by
  constructor
  · exact (save_orders_panic_spec store0 [orderA]).2 (by decide)
  · exact (save_orders_panic_spec store0 [{ id := "X", status := 99 }]).1.mpr
      ⟨{ id := "X", status := 99 }, by decide, by decide⟩

/-- C9: once the position slot is `Some` it never returns to the
no-position state: `save_positions []` leaves the position unchanged, a
non-empty list sets it to `some` of its last entry, and no other save
operation touches the slot. -/
theorem position_no_deletion_spec (s s' : VegaStore) (l : List Position)
    (la : List AccountBalance) (lo : List Order) (md : MarketData) :
    (l = [] → VegaStore.save_positions s l = s) ∧
    (∀ p, l.getLast? = some p →
      (VegaStore.save_positions s l).position = some p) ∧
    (s.position.isSome → ((VegaStore.save_positions s l).position).isSome) ∧
    ((VegaStore.save_accounts s la).position = s.position) ∧
    ((VegaStore.save_market_data s md).position = s.position) ∧
    (VegaStore.save_orders s lo = some s' → s'.position = s.position) := by
  refine ⟨?_, ?_, ?_, ?_, rfl, ?_⟩
  · intro hl
    subst hl
    rfl
  · intro p hp
    rw [VegaStore.save_positions_position, hp]
  · intro hs
    rw [VegaStore.save_positions_position]
    cases hl : l.getLast? with
    | none => exact hs
    | some p => rfl
  · exact (VegaStore.save_accounts_frame la s).2.2.2.1
  · intro h
    exact (VegaStore.save_orders_frame lo s s' h).2.2.2.1

/-- A store whose position slot is occupied. -/
def storeP : VegaStore := { store0 with position := some { open_volume := 2, average_entry_price := "500" } }

/-- C9 witness: with a stored position, saving an empty list keeps the slot
occupied, and saving a non-empty list sets it to the last entry. -/
theorem position_no_deletion_witness :
    ((VegaStore.save_positions storeP []).position).isSome ∧
    (VegaStore.save_positions storeP
      [{ open_volume := 3, average_entry_price := "600" }]).position =
      some { open_volume := 3, average_entry_price := "600" } := by
  constructor
  · exact (position_no_deletion_spec storeP storeP [] [] [] { mark_price := "0" }).2.2.1
      (by decide)
  · exact (position_no_deletion_spec storeP storeP
      [{ open_volume := 3, average_entry_price := "600" }] [] []
      { mark_price := "0" }).2.1 _ rfl

/-- C2 counterexample: the composite key is the bare string concatenation
`type ++ asset ++ market_id`, so the distinct composite triples
`(1, "2", "")` and `(12, "", "")` collide on the key `"12"`: after saving
both, one bucket remains and holds the second entry, not two coexisting
buckets as the claim requires. -/
theorem save_accounts_composite_key_collision :
    ({ owner := "", balance := "0", asset := "2", market_id := "", type := 1 } : AccountBalance).type ≠
        ({ owner := "", balance := "0", asset := "", market_id := "", type := 12 } : AccountBalance).type ∧
    VegaStore.accountKey { owner := "", balance := "0", asset := "2", market_id := "", type := 1 } =
      VegaStore.accountKey { owner := "", balance := "0", asset := "", market_id := "", type := 12 } ∧
    (VegaStore.save_accounts store0
      [{ owner := "", balance := "0", asset := "2", market_id := "", type := 1 },
       { owner := "", balance := "0", asset := "", market_id := "", type := 12 }]).accounts =
      [("12", { owner := "", balance := "0", asset := "", market_id := "", type := 12 })] := by
  refine ⟨by decide, by decide, by decide⟩

/-- C2 (amended): each entry upserts the bucket under its concatenated key
string `type ++ asset ++ market_id`: same key overwrites one bucket and
never duplicates a key, entries whose concatenated keys differ coexist, and
no store operation ever deletes a previously stored bucket. -/
theorem save_accounts_upsert_spec (s s' : VegaStore) (l : List AccountBalance)
    (a b : AccountBalance) (lo : List Order) (lp : List Position)
    (md : MarketData) :
    (kvGet (VegaStore.save_accounts s [a, b]).accounts
      (VegaStore.accountKey b) = some b) ∧
    ((s.accounts.map Prod.fst).Nodup →
      ((VegaStore.save_accounts s l).accounts.map Prod.fst).Nodup) ∧
    (VegaStore.accountKey a ≠ VegaStore.accountKey b →
      kvGet (VegaStore.save_accounts s [a, b]).accounts
          (VegaStore.accountKey a) = some a ∧
      kvGet (VegaStore.save_accounts s [a, b]).accounts
          (VegaStore.accountKey b) = some b) ∧
    (∀ k, (kvGet s.accounts k).isSome →
      (kvGet (VegaStore.save_accounts s l).accounts k).isSome) ∧
    ((VegaStore.save_positions s lp).accounts = s.accounts) ∧
    ((VegaStore.save_market_data s md).accounts = s.accounts) ∧
    (VegaStore.save_orders s lo = some s' → s'.accounts = s.accounts) := by
  have hpair : (VegaStore.save_accounts s [a, b]).accounts =
      kvInsert (kvInsert s.accounts (VegaStore.accountKey a) a)
        (VegaStore.accountKey b) b := rfl
  refine ⟨?_, ?_, ?_, ?_, ?_, rfl, ?_⟩
  · rw [hpair, kvGet_insert]
    simp
  · exact VegaStore.save_accounts_keys_nodup l s
  · intro hne
    constructor
    · rw [hpair, kvGet_insert, if_neg hne, kvGet_insert, if_pos rfl]
    · rw [hpair, kvGet_insert, if_pos rfl]
  · exact fun k => VegaStore.save_accounts_isSome l s k
  · exact (VegaStore.save_positions_frame lp s).2.2.1
  · intro h
    exact (VegaStore.save_orders_frame lo s s' h).2.2.1

/-- A store holding one account bucket. -/
def storeAcc : VegaStore :=
  { store0 with accounts :=
      [("3zz", { owner := "pk", balance := "7", asset := "zz", market_id := "", type := 3 })] }

/-- C2 witness: entries with different concatenated keys coexist, a same-key
entry overwrites, and a previously stored bucket survives a save. -/
theorem save_accounts_upsert_witness :
    kvGet (VegaStore.save_accounts store0
        [{ owner := "", balance := "0", asset := "2", market_id := "", type := 1 },
         { owner := "pk", balance := "7", asset := "zz", market_id := "", type := 3 }]).accounts
      (VegaStore.accountKey { owner := "", balance := "0", asset := "2", market_id := "", type := 1 }) =
      some { owner := "", balance := "0", asset := "2", market_id := "", type := 1 } ∧
    kvGet (VegaStore.save_accounts store0
        [{ owner := "", balance := "0", asset := "2", market_id := "", type := 1 },
         { owner := "pk", balance := "7", asset := "zz", market_id := "", type := 3 }]).accounts
      (VegaStore.accountKey { owner := "pk", balance := "7", asset := "zz", market_id := "", type := 3 }) =
      some { owner := "pk", balance := "7", asset := "zz", market_id := "", type := 3 } ∧
    (kvGet (VegaStore.save_accounts storeAcc
        [{ owner := "", balance := "0", asset := "2", market_id := "", type := 1 }]).accounts
      "3zz").isSome := by
  have h := save_accounts_upsert_spec store0 store0 []
    { owner := "", balance := "0", asset := "2", market_id := "", type := 1 }
    { owner := "pk", balance := "7", asset := "zz", market_id := "", type := 3 }
    [] [] { mark_price := "0" }
  have hc := h.2.2.1 (by decide)
  refine ⟨hc.1, hc.2, ?_⟩
  have h2 := save_accounts_upsert_spec storeAcc storeAcc
    [{ owner := "", balance := "0", asset := "2", market_id := "", type := 1 }]
    { owner := "", balance := "0", asset := "2", market_id := "", type := 1 }
    { owner := "", balance := "0", asset := "2", market_id := "", type := 1 }
    [] [] { mark_price := "0" }
  exact h2.2.2.2.1 "3zz" (by decide)

theorem ladder_levels_get :
    ∀ (i : Nat) (hi : i < ([(1 : ℚ), 2, 3, 4, 5]).length),
      ([(1 : ℚ), 2, 3, 4, 5]).get ⟨i, hi⟩ = (i + 1 : ℚ) := by
  intro i hi
  simp only [List.length_cons, List.length_nil] at hi
  interval_cases i <;> norm_num [List.get]

/-- C4: whenever `get_order_submission` produces a ladder, it has exactly 5
levels; the level at index `i` (level number `i+1`) quotes price
`ref_price * (1 ∓ (i+1) * 0.002)` converted to protocol price scale by
truncation, and size `(target_volume / 5) * ref_price` converted to
protocol position scale by truncation; at `ref_price = 100` the level-3
human-scale prices are 99.4 (bid) and 100.6 (offer). -/
theorem ladder_construction_spec :
    (∀ (d : Decimals) (ref_price target_volume : ℚ) (market_id : String)
        (side : Side) (l : List OrderSubmission),
      get_order_submission d ref_price side market_id target_volume = some l →
      l.length = 5 ∧
      ∀ i : Nat, i < 5 →
        l[i]? = some
          { market_id := market_id
            price := toString
              ⌊d.to_market_price_precision
                (match side with
                 | Side.buy => ref_price * (1 - (i + 1 : ℚ) * 0.002)
                 | Side.sell => ref_price * (1 + (i + 1 : ℚ) * 0.002))⌋.toNat
            size := ⌊d.to_market_position_precision
              (target_volume / 5 * ref_price)⌋.toNat
            side := side
            time_in_force := TimeInForce.gtc
            expires_at := 0
            type := OrderType.limit
            reference := "VEGA_RUST_MM_SIMPLE"
            pegged_order := none }) ∧
    price_buy 100 3 = 994 / 10 ∧ price_sell 100 3 = 1006 / 10 := by
  refine ⟨?_, by norm_num [price_buy], by norm_num [price_sell]⟩
  intro d ref_price target_volume market_id side l h
  cases side with
  | buy =>
    simp only [get_order_submission] at h
    have hsl := submission_levels_get [1, 2, 3, 4, 5] d ref_price price_buy
      Side.buy market_id (target_volume / 5 * ref_price) l h
    refine ⟨by simpa using hsl.1, ?_⟩
    intro i hi
    have hi5 : i < ([(1 : ℚ), 2, 3, 4, 5]).length := by simpa using hi
    have hg := hsl.2 i hi5
    rw [ladder_levels_get i hi5] at hg
    exact hg
  | sell =>
    simp only [get_order_submission] at h
    have hsl := submission_levels_get [1, 2, 3, 4, 5] d ref_price price_sell
      Side.sell market_id (target_volume / 5 * ref_price) l h
    refine ⟨by simpa using hsl.1, ?_⟩
    intro i hi
    have hi5 : i < ([(1 : ℚ), 2, 3, 4, 5]).length := by simpa using hi
    have hg := hsl.2 i hi5
    rw [ladder_levels_get i hi5] at hg
    exact hg

/-- A converter with price factor 10, position factor 100, asset factor
10^5 (the factors `Decimals::new` computes for `mkt0`/`asset0`). -/
def d1 : Decimals := { position_factor := 100, price_factor := 10, asset_factor := 100000 }

/-- An order submission of the shape `get_order_submission` builds. -/
def mkSub (pr : String) (sz : Nat) (sd : Side) : OrderSubmission :=
  { market_id := "mkt", price := pr, size := sz, side := sd
    time_in_force := TimeInForce.gtc, expires_at := 0
    type := OrderType.limit, reference := "VEGA_RUST_MM_SIMPLE"
    pegged_order := none }

/-- The bid ladder for `ref_price = 100`, budget 10, price factor 10,
position factor 100: protocol prices 998/996/994/992/990, size 20000. -/
def ladder1 : List OrderSubmission :=
  [mkSub "998" 20000 Side.buy, mkSub "996" 20000 Side.buy, mkSub "994" 20000 Side.buy,
   mkSub "992" 20000 Side.buy, mkSub "990" 20000 Side.buy]

/-- C4 witness: at `ref_price = 100` the level-3 bid (index 2) is priced
`994` in protocol scale — human-scale 99.4 at one price decimal — with size
`(10/5)*100 = 200` scaled to `20000`. -/
theorem ladder_construction_witness :
    get_order_submission d1 100 Side.buy "mkt" 10 = some ladder1 ∧
    ladder1.length = 5 ∧
    ladder1[2]? = some (mkSub "994" 20000 Side.buy) := by
  have hsome : get_order_submission d1 100 Side.buy "mkt" 10 = some ladder1 := by
    norm_num [get_order_submission, submission_levels, biguint_from_f64, price_buy,
      Decimals.to_market_price_precision, Decimals.to_market_position_precision,
      f64_as_u64, d1, ladder1, mkSub]
    decide
  have h := ladder_construction_spec.1 d1 100 10 "mkt" Side.buy ladder1 hsome
  exact ⟨hsome, h.1, rfl⟩

/-- C5: whenever a strategy run submits a batch, it is a single batch
carrying exactly one cancellation — the market-wide empty-order-id
cancel-all for the quoted market — an empty amendments list, and exactly 10
submissions (5 bids then 5 offers), each tagged with the fixed reference
string, good-till-cancelled, limit type, zero expiry and no peg. -/
theorem batch_instruction_spec (s : VegaStore) (pubkey market : String)
    (best_bid best_ask : ℚ) (batch : BatchMarketInstructions)
    (h : run_strategy s pubkey market best_bid best_ask = some batch) :
    batch.cancellations = [{ market_id := market, order_id := "" }] ∧
    batch.amendments = [] ∧
    batch.submissions.length = 10 ∧
    (batch.submissions.filter (fun o => decide (o.side = Side.buy))).length = 5 ∧
    (batch.submissions.filter (fun o => decide (o.side = Side.sell))).length = 5 ∧
    ∀ o ∈ batch.submissions,
      o.reference = "VEGA_RUST_MM_SIMPLE" ∧ o.time_in_force = TimeInForce.gtc ∧
      o.type = OrderType.limit ∧ o.expires_at = 0 ∧ o.pegged_order = none ∧
      o.market_id = market := by
  simp only [run_strategy] at h
  cases ha : s.get_asset (market_settlement_asset s.get_market) with
  | none => simp [ha] at h
  | some asset =>
    simp only [ha] at h
    cases hv : volume_and_average_entry_price (Decimals.new s.get_market asset)
        s.get_position with
    | none => simp [hv] at h
    | some va =>
      obtain ⟨vol, aep⟩ := va
      simp only [hv] at h
      cases hb : get_pubkey_balance s pubkey asset.id
          (Decimals.new s.get_market asset) with
      | none => simp [hb] at h
      | some balance =>
        simp only [hb] at h
        cases hbids : get_order_submission (Decimals.new s.get_market asset)
            best_bid Side.buy market (bid_volume balance vol aep) with
        | none => simp [hbids] at h
        | some bids =>
          simp only [hbids] at h
          cases hoffers : get_order_submission (Decimals.new s.get_market asset)
              best_ask Side.sell market (offer_volume balance vol aep) with
          | none => simp [hoffers] at h
          | some offers =>
            simp only [hoffers, Option.some_inj] at h
            subst h
            obtain ⟨hbl, hball⟩ := get_order_submission_all _ _ _ _ _ _ hbids
            obtain ⟨hol, hoall⟩ := get_order_submission_all _ _ _ _ _ _ hoffers
            refine ⟨rfl, rfl, ?_, ?_, ?_, ?_⟩
            · simp [hbl, hol]
            · rw [List.filter_append]
              have h1 : bids.filter (fun o => decide (o.side = Side.buy)) = bids :=
                List.filter_eq_self.mpr (fun o ho => by simp [(hball o ho).1])
              have h2 : offers.filter (fun o => decide (o.side = Side.buy)) = [] :=
                List.filter_eq_nil_iff.mpr (fun o ho => by simp [(hoall o ho).1])
              simp [h1, h2, hbl]
            · rw [List.filter_append]
              have h1 : bids.filter (fun o => decide (o.side = Side.sell)) = [] :=
                List.filter_eq_nil_iff.mpr (fun o ho => by simp [(hball o ho).1])
              have h2 : offers.filter (fun o => decide (o.side = Side.sell)) = offers :=
                List.filter_eq_self.mpr (fun o ho => by simp [(hoall o ho).1])
              simp [h1, h2, hol]
            · intro o ho
              rcases List.mem_append.mp ho with ho | ho
              · obtain ⟨_, h2, h3, h4, h5, h6, h7⟩ := hball o ho
                exact ⟨h2, h3, h4, h5, h6, h7⟩
              · obtain ⟨_, h2, h3, h4, h5, h6, h7⟩ := hoall o ho
                exact ⟨h2, h3, h4, h5, h6, h7⟩

/-- The batch `run_strategy` produces on `store0` with reference prices
`(0, 0)`: cancel-all plus five zero-priced bids and five zero-priced
offers. -/
def batch1 : BatchMarketInstructions :=
  { cancellations := [{ market_id := "mkt", order_id := "" }]
    amendments := []
    submissions :=
      [mkSub "0" 0 Side.buy, mkSub "0" 0 Side.buy, mkSub "0" 0 Side.buy,
       mkSub "0" 0 Side.buy, mkSub "0" 0 Side.buy, mkSub "0" 0 Side.sell,
       mkSub "0" 0 Side.sell, mkSub "0" 0 Side.sell, mkSub "0" 0 Side.sell,
       mkSub "0" 0 Side.sell] }

/-- C5 witness: a concrete run on `store0` submits exactly the cancel-all
batch with 10 tagged good-till-cancelled limit submissions. -/
theorem batch_instruction_witness :
    run_strategy store0 "pk" "mkt" 0 0 = some batch1 ∧
    batch1.cancellations = [{ market_id := "mkt", order_id := "" }] ∧
    batch1.amendments = [] ∧
    batch1.submissions.length = 10 := by
  have hrun : run_strategy store0 "pk" "mkt" 0 0 = some batch1 := by
    norm_num [run_strategy, VegaStore.get_market, VegaStore.get_asset,
      market_settlement_asset, store0, mkt0, asset0, kvGet, Decimals.new,
      VegaStore.get_position, volume_and_average_entry_price, get_pubkey_balance,
      VegaStore.get_accounts, Decimals.from_asset_precision, bid_volume,
      offer_volume, get_order_submission, submission_levels, price_buy, price_sell,
      biguint_from_f64, f64_as_u64, Decimals.to_market_price_precision,
      Decimals.to_market_position_precision, batch1, mkSub]
    decide
  have h := batch_instruction_spec store0 "pk" "mkt" 0 0 batch1 hrun
  exact ⟨hrun, h.1, h.2.1, h.2.2.1⟩

/-- C7 counterexample: a frame that decodes as a `24hrTicker` response but
whose bid field is not a parseable number makes the loop body panic
(`none`) instead of continuing with the pair unchanged, contradicting the
claim that every malformed frame is skipped with no error. -/
theorem ticker_parse_panic_counterexample :
    process_frame { bid_price := 1, ask_price := 2 }
        (some { e := "24hrTicker", a := "1.5", b := "oops" }) = none ∧
    process_frame { bid_price := 1, ask_price := 2 }
        (some { e := "24hrTicker", a := "1.5", b := "oops" }) ≠
      some { bid_price := 1, ask_price := 2 } := by
  constructor
  · decide
  · decide

/-- C7 (amended): the pair is replaced exactly by frames that decode as a
response whose event field is `"24hrTicker"` (the subscription scopes the
stream to one symbol; the code performs no explicit symbol check) and whose
bid/ask decimal strings both parse; a non-decoding or non-ticker frame
leaves the pair unchanged with no error; a decoded ticker frame whose bid
or ask fails numeric parsing panics rather than being skipped. -/
theorem ticker_frame_processing_spec (r : RefPrice)
    (decoded : Option BinanceResponse) :
    (decoded = none → process_frame r decoded = some r) ∧
    (∀ resp, decoded = some resp → resp.e ≠ "24hrTicker" →
      process_frame r decoded = some r) ∧
    (∀ resp b a, decoded = some resp → resp.e = "24hrTicker" →
      parseDecimal resp.b = some b → parseDecimal resp.a = some a →
      process_frame r decoded = some { bid_price := b, ask_price := a }) ∧
    (∀ resp, decoded = some resp → resp.e = "24hrTicker" →
      (parseDecimal resp.b = none ∨ parseDecimal resp.a = none) →
      process_frame r decoded = none) := by
  refine ⟨?_, ?_, ?_, ?_⟩
  · intro hd
    subst hd
    rfl
  · intro resp hd hne
    subst hd
    simp [process_frame, hne]
  · intro resp b a hd he hb ha
    subst hd
    simp [process_frame, he, hb, ha, RefPrice.set]
  · intro resp hd he hor
    subst hd
    rcases hor with hpb | hpa
    · simp [process_frame, he, hpb]
    · cases hpb : parseDecimal resp.b with
      | none => simp [process_frame, he, hpb]
      | some b => simp [process_frame, he, hpb, hpa]

/-- C7 witness: a well-formed ticker frame replaces the pair with its parsed
bid/ask, and a non-ticker frame leaves the pair unchanged. -/
theorem ticker_frame_processing_witness :
    process_frame RefPrice.new (some { e := "24hrTicker", a := "101", b := "100" }) =
      some { bid_price := 100, ask_price := 101 } ∧
    process_frame RefPrice.new (some { e := "ping", a := "", b := "" }) =
      some RefPrice.new := by
  have hb : parseDecimal "100" = some 100 := by
    rw [show parseDecimal "100" = some ((1 : ℚ) * ((100 : Nat) : ℚ)) from rfl]
    norm_num
  have ha : parseDecimal "101" = some 101 := by
    rw [show parseDecimal "101" = some ((1 : ℚ) * ((101 : Nat) : ℚ)) from rfl]
    norm_num
  constructor
  · exact (ticker_frame_processing_spec RefPrice.new _).2.2.1 _ 100 101 rfl rfl hb ha
  · exact (ticker_frame_processing_spec RefPrice.new _).2.1 _ rfl (by decide)
